import Mathlib

/-!
Shallow embedding of the `picker` program (`src/main.rs`) and proofs about it.

The program pairs people into rooms of two by repeated randomized greedy
trials.  Pure structure is translated directly; the two impure ingredients are
modelled explicitly:

* randomness (`rand::ThreadRng`): every random decision is a parameter.  A
  uniformly random pick from a slice is modelled by a natural number `k`, the
  element picked being the one at index `k % length` (every possible pick is
  some `k`, and the pick fails exactly when the slice is empty, as
  `SliceRandom::choose` does); the shuffle of the pool is modelled by passing
  the shuffled pool as an explicit list, related to the key set of the
  `unpreferred` map by permutation in the theorems;
* `anyhow::Result` is modelled by `Except String`, carrying the exact error
  message strings of the source.

`HashMap<String, Vec<String>>` is modelled as an association list
`List (String × List String)`; key distinctness, which the real `HashMap`
guarantees, is a `Nodup` hypothesis where a theorem needs it.
-/

namespace Picker

/-- Embeds the Rust struct `Settings`: `solutions: i64` is the configured
number of trials. -/
structure Settings where
  solutions : Int
  deriving DecidableEq

/-- Embeds the Rust struct `Config` (the `settings` table and the two
preference relations parsed from the TOML file). -/
structure Config where
  settings : Settings
  preferred : List (String × List String)
  unpreferred : List (String × List String)

/-- Embeds `HashMap::get`: the value of the entry whose key matches, if any. -/
def hmGet (m : List (String × List String)) (k : String) : Option (List String) :=
  (m.find? (fun p => p.1 == k)).map (fun p => p.2)

/-- Embeds `HashMap::keys` (the key sequence of the association list). -/
def hmKeys (m : List (String × List String)) : List String :=
  m.map (fun p => p.1)

/-- Embeds the Rust struct `Solution`: the pairing (`rooms`) plus the three
tier counters.  The `u64` counters are modelled as `Nat`: they are only ever
incremented once per pair, so they stay far below `2^64` for any input the
program can hold in memory. -/
structure Solution where
  rooms : List (String × String)
  preferred : Nat
  accepted : Nat
  unpreferred : Nat
  deriving DecidableEq

/-- Embeds `get_preferred_people`: of the candidates `people`, those `b` with
`preferred[a] ∋ b` and `preferred[b] ∋ a`; `none` as soon as a lookup fails
(the `?` operator on `HashMap::get`). -/
def get_preferred_people (a : String) (people : List String) (config : Config) :
    Option (List String) :=
  match people with
  | [] => some []
  | b :: rest =>
    match hmGet config.preferred a, hmGet config.preferred b with
    | some pa, some pb =>
      match get_preferred_people a rest config with
      | none => none
      | some tail =>
        if pa.contains b && pb.contains a then some (b :: tail) else some tail
    | _, _ => none

/-- Embeds `get_accepted_people`: of the candidates `people`, those `b` with
`unpreferred[a] ∌ b` and `unpreferred[b] ∌ a`; `none` as soon as a lookup
fails. -/
def get_accepted_people (a : String) (people : List String) (config : Config) :
    Option (List String) :=
  match people with
  | [] => some []
  | b :: rest =>
    match hmGet config.unpreferred a, hmGet config.unpreferred b with
    | some ua, some ub =>
      match get_accepted_people a rest config with
      | none => none
      | some tail =>
        if !ua.contains b && !ub.contains a then some (b :: tail) else some tail
    | _, _ => none

/-- Embeds `find_index`: the position of `item` in `array`
(`Iterator::position`), with the source's error message when absent. -/
def find_index (item : String) (array : List String) : Except String Nat :=
  match array.findIdx? (fun x => x == item) with
  | some i => .ok i
  | none => .error "Error choosing random item from list. Array empty."

/-- Embeds `choose_person`: pick a random element of `list` (modelled by the
index `k`, failing exactly when `list` is empty, as `choose` does), then
remove its first occurrence from `index_list` (`find_index` + `Vec::remove`)
and return it together with the shrunken list. -/
def choose_person (list : List String) (index_list : List String) (k : Nat) :
    Except String (String × List String) :=
  match list.get? (k % list.length) with
  | none => .error "Error choosing random person"
  | some person =>
    match find_index person index_list with
    | .error e => .error e
    | .ok index => .ok (person, index_list.eraseIdx index)

/-- Auxiliary length bound used for termination of the solver loop: a
successful `choose_person` does not lengthen the pool it removes from. -/
theorem choose_person_length_le {list index_list : List String} {k : Nat}
    {b : String} {out : List String}
    (h : choose_person list index_list k = .ok (b, out)) :
    out.length ≤ index_list.length := by
  unfold choose_person at h
  split at h
  · simp at h
  · split at h
    · simp at h
    · simp only [Except.ok.injEq, Prod.mk.injEq] at h
      rw [← h.2]
      exact (List.eraseIdx_sublist index_list _).length_le

/-- Embeds the `while let Some(person) = people.pop()` loop of `solve`:
`people` is the current pool (a `Vec`, popped from the end), `ks` feeds one
modelled random index per iteration.  Instead of mutating accumulators the
pair and counter increments are applied to the recursively computed remainder,
which yields the same rooms sequence and counters. -/
def solveAux (config : Config) (ks : List Nat) (people : List String) :
    Except String Solution :=
  match hpop : people.getLast? with
  | none => .ok { rooms := [], preferred := 0, accepted := 0, unpreferred := 0 }
  | some person =>
    match get_preferred_people person people.dropLast config with
    | none => .error "Error generating preferred people"
    | some preferred_people =>
      match get_accepted_people person people.dropLast config with
      | none => .error "Error generating accepted people"
      | some accepted_people =>
        if preferred_people ≠ [] then
          match hc : choose_person preferred_people people.dropLast (ks.headD 0) with
          | .error e => .error e
          | .ok (second_person, rest) =>
            match solveAux config ks.tail rest with
            | .error e => .error e
            | .ok s =>
              .ok { rooms := (person, second_person) :: s.rooms,
                    preferred := s.preferred + 1, accepted := s.accepted,
                    unpreferred := s.unpreferred }
        else if accepted_people ≠ [] then
          match hc : choose_person accepted_people people.dropLast (ks.headD 0) with
          | .error e => .error e
          | .ok (second_person, rest) =>
            match solveAux config ks.tail rest with
            | .error e => .error e
            | .ok s =>
              .ok { rooms := (person, second_person) :: s.rooms,
                    preferred := s.preferred, accepted := s.accepted + 1,
                    unpreferred := s.unpreferred }
        else
          match hc : choose_person people.dropLast people.dropLast (ks.headD 0) with
          | .error e => .error e
          | .ok (second_person, rest) =>
            match solveAux config ks.tail rest with
            | .error e => .error e
            | .ok s =>
              .ok { rooms := (person, second_person) :: s.rooms,
                    preferred := s.preferred, accepted := s.accepted,
                    unpreferred := s.unpreferred + 1 }
termination_by people.length
decreasing_by
  all_goals
    have hlen := choose_person_length_le hc
    have hne : people ≠ [] := by
      intro hnil
      rw [hnil] at hpop
      simp at hpop
    have hpos : 0 < people.length := List.length_pos.mpr hne
    have hdl : people.dropLast.length = people.length - 1 := people.length_dropLast
    omega

/-- Embeds `solve`: the pool starts as `config.unpreferred.keys()` shuffled;
the shuffle result is the explicit parameter `people` (theorems relate it to
`hmKeys config.unpreferred` by permutation), `ks` the per-iteration random
picks. -/
def solve (config : Config) (people : List String) (ks : List Nat) :
    Except String Solution :=
  solveAux config ks people

/-- Loop of `generate_solutions`: run `n` trials starting at trial index `i`,
trial `j` drawing its shuffled pool and pick indices from `rand j`.  The `?`
on `solve` propagates the first failure and discards everything. -/
def generate_solutions_aux (config : Config) (rand : Nat → List String × List Nat) :
    Nat → Nat → Except String (List Solution)
  | _, 0 => .ok []
  | i, n + 1 =>
    match solve config (rand i).1 (rand i).2 with
    | .error e => .error e
    | .ok s =>
      match generate_solutions_aux config rand (i + 1) n with
      | .error e => .error e
      | .ok tail => .ok (s :: tail)

/-- Embeds `generate_solutions`: `for _ in 0..config.settings.solutions`
(an `i64` range, empty when the bound is non-positive, hence `Int.toNat`). -/
def generate_solutions (config : Config) (rand : Nat → List String × List Nat) :
    Except String (List Solution) :=
  generate_solutions_aux config rand 0 config.settings.solutions.toNat

/-- Multiset of people occurring in a pairing: both components of every room,
in order.  Used to state the "every person appears in exactly one pair"
invariant of the spec. -/
def roomsFlat : List (String × String) → List String
  | [] => []
  | p :: rest => p.1 :: p.2 :: roomsFlat rest

/-- Embeds the ranking stage of `main`: keep the solutions with the minimum
`unpreferred` count, then of those the ones with the maximum `preferred`
count.  The `Iterator::min`/`max` calls are `.unwrap()`ed in the source (panic
on an empty solution set), modelled by `Option`. -/
def rank_solutions (solutions : List Solution) : Option (List Solution) :=
  match (solutions.map (fun x => x.unpreferred)).min? with
  | none => none
  | some min_unpreferred =>
    let solutions1 := solutions.filter (fun x => x.unpreferred == min_unpreferred)
    match (solutions1.map (fun x => x.preferred)).max? with
    | none => none
    | some max_preferred =>
      some (solutions1.filter (fun x => x.preferred == max_preferred))

/-! Helper lemmas about the classifier functions. -/

/-- A key of the association list always has a value (`HashMap::get` on a key
returned by `HashMap::keys` succeeds). -/
theorem hmGet_isSome_of_mem_keys {m : List (String × List String)} {x : String}
    (h : x ∈ hmKeys m) : (hmGet m x).isSome := by
  unfold hmKeys at h
  unfold hmGet
  rcases List.mem_map.mp h with ⟨p, hp, hpx⟩
  have hfind : (List.find? (fun q => q.1 == x) m).isSome := by
    rw [List.find?_isSome]
    exact ⟨p, hp, by simp [hpx]⟩
  rcases Option.isSome_iff_exists.mp hfind with ⟨q, hq⟩
  simp [hq]

/-- Everything `get_preferred_people` returns came from the candidate pool. -/
theorem get_preferred_people_subset {a : String} {config : Config} :
    ∀ {pool l : List String}, get_preferred_people a pool config = some l →
      ∀ x ∈ l, x ∈ pool := by
  intro pool
  induction pool with
  | nil =>
    intro l h x hx
    simp only [get_preferred_people, Option.some.injEq] at h
    subst h
    simp at hx
  | cons b rest ih =>
    intro l h x hx
    simp only [get_preferred_people] at h
    split at h
    · split at h
      · exact absurd h (by simp)
      · rename_i tail heq
        split at h
        · simp only [Option.some.injEq] at h
          subst h
          rcases List.mem_cons.mp hx with hxb | hxt
          · exact List.mem_cons.mpr (Or.inl hxb)
          · exact List.mem_cons.mpr (Or.inr (ih heq x hxt))
        · simp only [Option.some.injEq] at h
          subst h
          exact List.mem_cons.mpr (Or.inr (ih heq x hx))
    · exact absurd h (by simp)

/-- Everything `get_accepted_people` returns came from the candidate pool. -/
theorem get_accepted_people_subset {a : String} {config : Config} :
    ∀ {pool l : List String}, get_accepted_people a pool config = some l →
      ∀ x ∈ l, x ∈ pool := by
  intro pool
  induction pool with
  | nil =>
    intro l h x hx
    simp only [get_accepted_people, Option.some.injEq] at h
    subst h
    simp at hx
  | cons b rest ih =>
    intro l h x hx
    simp only [get_accepted_people] at h
    split at h
    · split at h
      · exact absurd h (by simp)
      · rename_i tail heq
        split at h
        · simp only [Option.some.injEq] at h
          subst h
          rcases List.mem_cons.mp hx with hxb | hxt
          · exact List.mem_cons.mpr (Or.inl hxb)
          · exact List.mem_cons.mpr (Or.inr (ih heq x hxt))
        · simp only [Option.some.injEq] at h
          subst h
          exact List.mem_cons.mpr (Or.inr (ih heq x hx))
    · exact absurd h (by simp)

/-- When every needed relation entry is present, `get_preferred_people`
succeeds. -/
theorem get_preferred_people_isSome {a : String} {config : Config}
    (ha : (hmGet config.preferred a).isSome) :
    ∀ {pool : List String}, (∀ x ∈ pool, (hmGet config.preferred x).isSome) →
      ∃ l, get_preferred_people a pool config = some l := by
  intro pool
  induction pool with
  | nil => exact fun _ => ⟨[], rfl⟩
  | cons b rest ih =>
    intro hall
    rcases Option.isSome_iff_exists.mp ha with ⟨pa, hpa⟩
    rcases Option.isSome_iff_exists.mp (hall b (List.mem_cons_self b rest)) with ⟨pb, hpb⟩
    rcases ih (fun x hx => hall x (List.mem_cons.mpr (Or.inr hx))) with ⟨tail, htail⟩
    refine ⟨if pa.contains b && pb.contains a then b :: tail else tail, ?_⟩
    simp only [get_preferred_people, hpa, hpb, htail]
    split <;> simp_all

/-- When every needed relation entry is present, `get_accepted_people`
succeeds. -/
theorem get_accepted_people_isSome {a : String} {config : Config}
    (ha : (hmGet config.unpreferred a).isSome) :
    ∀ {pool : List String}, (∀ x ∈ pool, (hmGet config.unpreferred x).isSome) →
      ∃ l, get_accepted_people a pool config = some l := by
  intro pool
  induction pool with
  | nil => exact fun _ => ⟨[], rfl⟩
  | cons b rest ih =>
    intro hall
    rcases Option.isSome_iff_exists.mp ha with ⟨ua, hua⟩
    rcases Option.isSome_iff_exists.mp (hall b (List.mem_cons_self b rest)) with ⟨ub, hub⟩
    rcases ih (fun x hx => hall x (List.mem_cons.mpr (Or.inr hx))) with ⟨tail, htail⟩
    refine ⟨if !ua.contains b && !ub.contains a then b :: tail else tail, ?_⟩
    simp only [get_accepted_people, hua, hub, htail]
    split <;> simp_all

/-- Characterisation of a found index: the sought person is present, and
erasing at the found index erases that person's first occurrence. -/
theorem findIdx_beq_eraseIdx {b : String} :
    ∀ {il : List String} {i : Nat}, il.findIdx? (fun x => x == b) = some i →
      b ∈ il ∧ il.eraseIdx i = il.erase b := by
  intro il
  induction il with
  | nil => intro i h; simp at h
  | cons x xs ih =>
    intro i h
    rw [List.findIdx?_cons] at h
    by_cases hx : x == b
    · rw [if_pos hx] at h
      cases h
      have hxb : x = b := by simpa using hx
      refine ⟨hxb ▸ List.mem_cons_self x xs, ?_⟩
      rw [List.eraseIdx_cons_zero, List.erase_cons, if_pos hx]
    · rw [if_neg hx] at h
      rw [List.findIdx?_succ] at h
      rcases Option.map_eq_some'.mp h with ⟨j, hj, hji⟩
      rcases ih hj with ⟨hmem, herase⟩
      subst hji
      refine ⟨List.mem_cons_of_mem x hmem, ?_⟩
      rw [List.eraseIdx_cons_succ, herase, List.erase_cons, if_neg hx]

/-- Specification of a successful `choose_person`: the chosen person comes
from the candidate list and from the pool, and the returned pool is the input
pool with that person's first occurrence removed. -/
theorem choose_person_spec {list index_list : List String} {k : Nat}
    {b : String} {out : List String}
    (h : choose_person list index_list k = .ok (b, out)) :
    b ∈ list ∧ b ∈ index_list ∧ out = index_list.erase b := by
  unfold choose_person at h
  split at h
  · simp at h
  · rename_i person hg
    split at h
    · simp at h
    · rename_i index hfi
      simp only [Except.ok.injEq, Prod.mk.injEq] at h
      unfold find_index at hfi
      split at hfi
      · rename_i i hidx
        simp only [Except.ok.injEq] at hfi
        subst hfi
        rcases findIdx_beq_eraseIdx hidx with ⟨hmem, herase⟩
        rcases h with ⟨rfl, rfl⟩
        exact ⟨List.get?_mem hg, hmem, herase⟩
      · simp at hfi

/-- `choose_person` succeeds whenever the candidate list is non-empty and
drawn from the pool. -/
theorem choose_person_ok {list index_list : List String} (k : Nat)
    (hne : list ≠ []) (hsub : ∀ x ∈ list, x ∈ index_list) :
    ∃ b out, choose_person list index_list k = .ok (b, out) := by
  cases hcp : choose_person list index_list k with
  | ok pr =>
    obtain ⟨b, out⟩ := pr
    exact ⟨b, out, rfl⟩
  | error e =>
    exfalso
    unfold choose_person at hcp
    split at hcp
    · rename_i hnone
      rw [List.get?_eq_none] at hnone
      have hlen : 0 < list.length := List.length_pos.mpr hne
      have := Nat.mod_lt k hlen
      omega
    · rename_i person hg
      split at hcp
      · rename_i e' hfi
        unfold find_index at hfi
        split at hfi
        · simp at hfi
        · rename_i hnone
          rw [List.findIdx?_eq_none_iff] at hnone
          have hfalse := hnone person (hsub person (List.get?_mem hg))
          simp at hfalse
      · simp at hcp

/-- Failing `choose_person` on the empty candidate list: the modelled
`SliceRandom::choose` returns `None` and the pool-exhaustion message is
produced. -/
theorem choose_person_nil (index_list : List String) (k : Nat) :
    choose_person [] index_list k = .error "Error choosing random person" := rfl

/-- A pool is a permutation of the chosen person consed onto the shrunken
pool returned by `choose_person`. -/
theorem perm_cons_erase_of_mem {a : String} {l : List String} (h : a ∈ l) :
    l.Perm (a :: l.erase a) := by
  rcases List.exists_erase_eq h with ⟨l₁, l₂, _, hdecomp, herase⟩
  rw [herase, hdecomp]
  exact List.perm_middle

/-- Unfolding of the solver loop on the empty pool. -/
theorem solveAux_nil (config : Config) (ks : List Nat) :
    solveAux config ks [] = .ok ⟨[], 0, 0, 0⟩ := by
  unfold solveAux
  rfl

/-- Unfolding of the solver loop when the pool ends in `a`: `a` is popped and
the iteration body runs on the remaining pool. -/
theorem solveAux_concat (config : Config) (ks : List Nat) (rest : List String)
    (a : String) :
    solveAux config ks (rest ++ [a]) =
      match get_preferred_people a rest config with
      | none => .error "Error generating preferred people"
      | some preferred_people =>
        match get_accepted_people a rest config with
        | none => .error "Error generating accepted people"
        | some accepted_people =>
          if preferred_people ≠ [] then
            match choose_person preferred_people rest (ks.headD 0) with
            | .error e => .error e
            | .ok (second_person, rest2) =>
              match solveAux config ks.tail rest2 with
              | .error e => .error e
              | .ok s =>
                .ok { rooms := (a, second_person) :: s.rooms,
                      preferred := s.preferred + 1, accepted := s.accepted,
                      unpreferred := s.unpreferred }
          else if accepted_people ≠ [] then
            match choose_person accepted_people rest (ks.headD 0) with
            | .error e => .error e
            | .ok (second_person, rest2) =>
              match solveAux config ks.tail rest2 with
              | .error e => .error e
              | .ok s =>
                .ok { rooms := (a, second_person) :: s.rooms,
                      preferred := s.preferred, accepted := s.accepted + 1,
                      unpreferred := s.unpreferred }
          else
            match choose_person rest rest (ks.headD 0) with
            | .error e => .error e
            | .ok (second_person, rest2) =>
              match solveAux config ks.tail rest2 with
              | .error e => .error e
              | .ok s =>
                .ok { rooms := (a, second_person) :: s.rooms,
                      preferred := s.preferred, accepted := s.accepted,
                      unpreferred := s.unpreferred + 1 } := by
  conv_lhs => unfold solveAux
  split
  · rename_i h
    rw [List.getLast?_concat] at h
    cases h
  · rename_i person h
    rw [List.getLast?_concat] at h
    cases h
    rw [List.dropLast_concat]
    split
    · rfl
    · rename_i P hP
      split
      · rfl
      · rename_i A hA
        by_cases hPne : P ≠ []
        · simp only [if_pos hPne]
          split <;> rename_i heq <;> rw [heq]
        · simp only [if_neg hPne]
          by_cases hAne : A ≠ []
          · simp only [if_pos hAne]
            split <;> rename_i heq <;> rw [heq]
          · simp only [if_neg hAne]
            split <;> rename_i heq <;> rw [heq]

/-- Iteration with a missing `preferred` entry: the `ok_or_else` on
`get_preferred_people` aborts the solve. -/
theorem solveAux_step_pref_none {config : Config} {ks : List Nat}
    {rest : List String} {a : String}
    (hP : get_preferred_people a rest config = none) :
    solveAux config ks (rest ++ [a]) = .error "Error generating preferred people" := by
  rw [solveAux_concat]
  simp only [hP]

/-- Iteration with a missing `unpreferred` entry: the `ok_or_else` on
`get_accepted_people` aborts the solve. -/
theorem solveAux_step_acc_none {config : Config} {ks : List Nat}
    {rest : List String} {a : String} {P : List String}
    (hP : get_preferred_people a rest config = some P)
    (hA : get_accepted_people a rest config = none) :
    solveAux config ks (rest ++ [a]) = .error "Error generating accepted people" := by
  rw [solveAux_concat]
  simp only [hP, hA]

/-- Successful iteration through the mutually-preferred branch. -/
theorem solveAux_step_pref {config : Config} {ks : List Nat}
    {rest rest2 : List String} {a sp : String} {P A : List String} {s : Solution}
    (hP : get_preferred_people a rest config = some P)
    (hA : get_accepted_people a rest config = some A)
    (hPne : P ≠ [])
    (hc : choose_person P rest (ks.headD 0) = .ok (sp, rest2))
    (hrec : solveAux config ks.tail rest2 = .ok s) :
    solveAux config ks (rest ++ [a]) =
      .ok { rooms := (a, sp) :: s.rooms, preferred := s.preferred + 1,
            accepted := s.accepted, unpreferred := s.unpreferred } := by
  rw [solveAux_concat]
  simp only [hP, hA, if_pos hPne, hc, hrec]

/-- Error-propagating iteration through the mutually-preferred branch. -/
theorem solveAux_step_pref_err {config : Config} {ks : List Nat}
    {rest rest2 : List String} {a sp : String} {P A : List String} {e : String}
    (hP : get_preferred_people a rest config = some P)
    (hA : get_accepted_people a rest config = some A)
    (hPne : P ≠ [])
    (hc : choose_person P rest (ks.headD 0) = .ok (sp, rest2))
    (hrec : solveAux config ks.tail rest2 = .error e) :
    solveAux config ks (rest ++ [a]) = .error e := by
  rw [solveAux_concat]
  simp only [hP, hA, if_pos hPne, hc, hrec]

/-- Successful iteration through the mutually-accepted branch. -/
theorem solveAux_step_acc {config : Config} {ks : List Nat}
    {rest rest2 : List String} {a sp : String} {A : List String} {s : Solution}
    (hP : get_preferred_people a rest config = some [])
    (hA : get_accepted_people a rest config = some A)
    (hAne : A ≠ [])
    (hc : choose_person A rest (ks.headD 0) = .ok (sp, rest2))
    (hrec : solveAux config ks.tail rest2 = .ok s) :
    solveAux config ks (rest ++ [a]) =
      .ok { rooms := (a, sp) :: s.rooms, preferred := s.preferred,
            accepted := s.accepted + 1, unpreferred := s.unpreferred } := by
  rw [solveAux_concat]
  simp only [hP, hA, if_pos hAne, hc, hrec]
  simp

/-- Error-propagating iteration through the mutually-accepted branch. -/
theorem solveAux_step_acc_err {config : Config} {ks : List Nat}
    {rest rest2 : List String} {a sp : String} {A : List String} {e : String}
    (hP : get_preferred_people a rest config = some [])
    (hA : get_accepted_people a rest config = some A)
    (hAne : A ≠ [])
    (hc : choose_person A rest (ks.headD 0) = .ok (sp, rest2))
    (hrec : solveAux config ks.tail rest2 = .error e) :
    solveAux config ks (rest ++ [a]) = .error e := by
  rw [solveAux_concat]
  simp only [hP, hA, if_pos hAne, hc, hrec]
  simp

/-- Successful iteration through the fallback branch. -/
theorem solveAux_step_fall {config : Config} {ks : List Nat}
    {rest rest2 : List String} {a sp : String} {s : Solution}
    (hP : get_preferred_people a rest config = some [])
    (hA : get_accepted_people a rest config = some [])
    (hc : choose_person rest rest (ks.headD 0) = .ok (sp, rest2))
    (hrec : solveAux config ks.tail rest2 = .ok s) :
    solveAux config ks (rest ++ [a]) =
      .ok { rooms := (a, sp) :: s.rooms, preferred := s.preferred,
            accepted := s.accepted, unpreferred := s.unpreferred + 1 } := by
  rw [solveAux_concat]
  simp only [hP, hA, hc, hrec]
  simp

/-- Error-propagating iteration through the fallback branch. -/
theorem solveAux_step_fall_err {config : Config} {ks : List Nat}
    {rest rest2 : List String} {a sp : String} {e : String}
    (hP : get_preferred_people a rest config = some [])
    (hA : get_accepted_people a rest config = some [])
    (hc : choose_person rest rest (ks.headD 0) = .ok (sp, rest2))
    (hrec : solveAux config ks.tail rest2 = .error e) :
    solveAux config ks (rest ++ [a]) = .error e := by
  rw [solveAux_concat]
  simp only [hP, hA, hc, hrec]
  simp

/-- Iteration through the fallback branch with a failing pick (the pool is
already empty): the pick's error aborts the solve. -/
theorem solveAux_step_fall_choose_err {config : Config} {ks : List Nat}
    {rest : List String} {a : String} {e : String}
    (hP : get_preferred_people a rest config = some [])
    (hA : get_accepted_people a rest config = some [])
    (hc : choose_person rest rest (ks.headD 0) = .error e) :
    solveAux config ks (rest ++ [a]) = .error e := by
  rw [solveAux_concat]
  simp only [hP, hA, hc]
  simp

/-- Inversion of one successful iteration of the solver loop: the popped
pivot `a` is paired with a partner `sp` taken out of the remaining pool, the
partner comes from the mutually-preferred list if that is non-empty, else
from the mutually-accepted list if that is non-empty, else from the whole
remaining pool, and exactly the matching tier counter grows by one. -/
theorem solveAux_ok_step {config : Config} {ks : List Nat} {rest : List String}
    {a : String} {s : Solution}
    (h : solveAux config ks (rest ++ [a]) = .ok s) :
    ∃ P A sp s',
      get_preferred_people a rest config = some P ∧
      get_accepted_people a rest config = some A ∧
      sp ∈ rest ∧
      solveAux config ks.tail (rest.erase sp) = .ok s' ∧
      s.rooms = (a, sp) :: s'.rooms ∧
      ((P ≠ [] ∧ sp ∈ P ∧ s.preferred = s'.preferred + 1 ∧
          s.accepted = s'.accepted ∧ s.unpreferred = s'.unpreferred) ∨
       (P = [] ∧ A ≠ [] ∧ sp ∈ A ∧ s.preferred = s'.preferred ∧
          s.accepted = s'.accepted + 1 ∧ s.unpreferred = s'.unpreferred) ∨
       (P = [] ∧ A = [] ∧ s.preferred = s'.preferred ∧
          s.accepted = s'.accepted ∧ s.unpreferred = s'.unpreferred + 1)) := by
  rw [solveAux_concat] at h
  split at h
  · simp at h
  · rename_i P hP
    split at h
    · simp at h
    · rename_i A hA
      split at h
      · rename_i hPne
        split at h
        · simp at h
        · rename_i sp rest2 hc
          split at h
          · simp at h
          · rename_i s' hs'
            cases h
            rcases choose_person_spec hc with ⟨hspP, hsprest, hrfl⟩
            subst hrfl
            exact ⟨P, A, sp, s', hP, hA, hsprest, hs', rfl,
              Or.inl ⟨hPne, hspP, rfl, rfl, rfl⟩⟩
      · rename_i hPnn
        have hPnil : P = [] := not_ne_iff.mp hPnn
        split at h
        · rename_i hAne
          split at h
          · simp at h
          · rename_i sp rest2 hc
            split at h
            · simp at h
            · rename_i s' hs'
              cases h
              rcases choose_person_spec hc with ⟨hspA, hsprest, hrfl⟩
              subst hrfl
              exact ⟨P, A, sp, s', hP, hA, hsprest, hs', rfl,
                Or.inr (Or.inl ⟨hPnil, hAne, hspA, rfl, rfl, rfl⟩)⟩
        · rename_i hAnn
          have hAnil : A = [] := not_ne_iff.mp hAnn
          split at h
          · simp at h
          · rename_i sp rest2 hc
            split at h
            · simp at h
            · rename_i s' hs'
              cases h
              rcases choose_person_spec hc with ⟨hspA, hsprest, hrfl⟩
              subst hrfl
              exact ⟨P, A, sp, s', hP, hA, hsprest, hs', rfl,
                Or.inr (Or.inr ⟨hPnil, hAnil, rfl, rfl, rfl⟩)⟩

/-- Tier counters of every solution the loop produces sum to the number of
rooms. -/
theorem solveAux_counts {config : Config} :
    ∀ (n : Nat) (people : List String) (ks : List Nat) (s : Solution),
      people.length ≤ n → solveAux config ks people = .ok s →
      s.preferred + s.accepted + s.unpreferred = s.rooms.length := by
  intro n
  induction n with
  | zero =>
    intro people ks s hlen h
    have hnil : people = [] := List.length_eq_zero.mp (Nat.le_zero.mp hlen)
    subst hnil
    rw [solveAux_nil] at h
    cases h
    rfl
  | succ n ih =>
    intro people ks s hlen h
    rcases List.eq_nil_or_concat people with rfl | ⟨rest, a, rfl⟩
    · rw [solveAux_nil] at h
      cases h
      rfl
    · rw [List.concat_eq_append] at h hlen
      rcases solveAux_ok_step h with ⟨P, A, sp, s', _, _, hsprest, hs', hrooms, hcase⟩
    -- length bookkeeping for the recursive call
      have hlenrest : rest.length + 1 ≤ n + 1 := by
        simpa using hlen
      have hlen2 : (rest.erase sp).length ≤ n := by
        have := List.length_erase_of_mem hsprest
        omega
      have hrec := ih (rest.erase sp) ks.tail s' hlen2 hs'
      have hlenrooms : s.rooms.length = s'.rooms.length + 1 := by
        rw [hrooms]
        rfl
      rcases hcase with ⟨_, _, h1, h2, h3⟩ | ⟨_, _, _, h1, h2, h3⟩ | ⟨_, _, h1, h2, h3⟩ <;>
        omega

/-- The people of the pairing the loop produces are a permutation of the
pool it started from. -/
theorem solveAux_perm {config : Config} :
    ∀ (n : Nat) (people : List String) (ks : List Nat) (s : Solution),
      people.length ≤ n → solveAux config ks people = .ok s →
      (roomsFlat s.rooms).Perm people := by
  intro n
  induction n with
  | zero =>
    intro people ks s hlen h
    have hnil : people = [] := List.length_eq_zero.mp (Nat.le_zero.mp hlen)
    subst hnil
    rw [solveAux_nil] at h
    cases h
    exact List.Perm.refl _
  | succ n ih =>
    intro people ks s hlen h
    rcases List.eq_nil_or_concat people with rfl | ⟨rest, a, rfl⟩
    · rw [solveAux_nil] at h
      cases h
      exact List.Perm.refl _
    · rw [List.concat_eq_append] at h hlen ⊢
      rcases solveAux_ok_step h with ⟨P, A, sp, s', _, _, hsprest, hs', hrooms, _⟩
      have hlenrest : rest.length + 1 ≤ n + 1 := by
        simpa using hlen
      have hlen2 : (rest.erase sp).length ≤ n := by
        have := List.length_erase_of_mem hsprest
        omega
      have hrec : (roomsFlat s'.rooms).Perm (rest.erase sp) :=
        ih (rest.erase sp) ks.tail s' hlen2 hs'
      have hflat : roomsFlat s.rooms = a :: sp :: roomsFlat s'.rooms := by
        rw [hrooms]
        rfl
      rw [hflat]
      have step1 : (a :: sp :: roomsFlat s'.rooms).Perm (a :: sp :: rest.erase sp) :=
        (hrec.cons sp).cons a
      have step2 : (sp :: rest.erase sp).Perm rest :=
        (perm_cons_erase_of_mem hsprest).symm
      exact step1.trans ((step2.cons a).trans (List.perm_append_singleton a rest).symm)

/-- Parity dichotomy of the solver loop when every pool member has entries in
both relations: an even pool is fully paired, an odd pool always ends in the
failing pick on the empty pool (the pool-exhaustion error). -/
theorem solveAux_parity {config : Config} :
    ∀ (n : Nat) (people : List String) (ks : List Nat),
      people.length ≤ n →
      (∀ x ∈ people, (hmGet config.preferred x).isSome) →
      (∀ x ∈ people, (hmGet config.unpreferred x).isSome) →
      (people.length % 2 = 0 → ∃ s, solveAux config ks people = .ok s) ∧
      (people.length % 2 = 1 →
        solveAux config ks people = .error "Error choosing random person") := by
  intro n
  induction n with
  | zero =>
    intro people ks hlen hp hu
    have hnil : people = [] := List.length_eq_zero.mp (Nat.le_zero.mp hlen)
    subst hnil
    refine ⟨fun _ => ⟨_, solveAux_nil config ks⟩, fun hodd => ?_⟩
    simp at hodd
  | succ n ih =>
    intro people ks hlen hp hu
    rcases List.eq_nil_or_concat people with rfl | ⟨rest, a, rfl⟩
    · refine ⟨fun _ => ⟨_, solveAux_nil config ks⟩, fun hodd => ?_⟩
      simp at hodd
    · rw [List.concat_eq_append] at hlen hp hu ⊢
      have hamem : a ∈ rest ++ [a] := by simp
      have hrsub : ∀ x ∈ rest, x ∈ rest ++ [a] := by
        intro x hx
        simp [hx]
      obtain ⟨P, hPeq⟩ :=
        get_preferred_people_isSome (hp a hamem) (fun x hx => hp x (hrsub x hx))
      obtain ⟨A, hAeq⟩ :=
        get_accepted_people_isSome (hu a hamem) (fun x hx => hu x (hrsub x hx))
      have hlen1 : (rest ++ [a]).length = rest.length + 1 := by simp
      have hlenrest : rest.length ≤ n := by omega
      constructor
      · intro heven
        have hrodd : rest.length % 2 = 1 := by omega
        have hrne : rest ≠ [] := by
          intro h0
          subst h0
          simp at hrodd
        by_cases hPne : P ≠ []
        · obtain ⟨sp, rest2, hc⟩ := choose_person_ok (ks.headD 0) hPne
            (fun x hx => get_preferred_people_subset hPeq x hx)
          rcases choose_person_spec hc with ⟨hspP, hsprest, hrfl⟩
          subst hrfl
          have hlen2 : (rest.erase sp).length = rest.length - 1 :=
            List.length_erase_of_mem hsprest
          have hsub2 : ∀ x ∈ rest.erase sp, x ∈ rest ++ [a] :=
            fun x hx => hrsub x ((List.erase_sublist sp rest).subset hx)
          obtain ⟨s', hs'⟩ :=
            (ih (rest.erase sp) ks.tail (by omega)
              (fun x hx => hp x (hsub2 x hx))
              (fun x hx => hu x (hsub2 x hx))).1 (by omega)
          exact ⟨_, solveAux_step_pref hPeq hAeq hPne hc hs'⟩
        · have hPnil : P = [] := not_ne_iff.mp hPne
          subst hPnil
          by_cases hAne : A ≠ []
          · obtain ⟨sp, rest2, hc⟩ := choose_person_ok (ks.headD 0) hAne
              (fun x hx => get_accepted_people_subset hAeq x hx)
            rcases choose_person_spec hc with ⟨hspA, hsprest, hrfl⟩
            subst hrfl
            have hlen2 : (rest.erase sp).length = rest.length - 1 :=
              List.length_erase_of_mem hsprest
            have hsub2 : ∀ x ∈ rest.erase sp, x ∈ rest ++ [a] :=
              fun x hx => hrsub x ((List.erase_sublist sp rest).subset hx)
            obtain ⟨s', hs'⟩ :=
              (ih (rest.erase sp) ks.tail (by omega)
                (fun x hx => hp x (hsub2 x hx))
                (fun x hx => hu x (hsub2 x hx))).1 (by omega)
            exact ⟨_, solveAux_step_acc hPeq hAeq hAne hc hs'⟩
          · have hAnil : A = [] := not_ne_iff.mp hAne
            subst hAnil
            obtain ⟨sp, rest2, hc⟩ := choose_person_ok (ks.headD 0) hrne
              (fun x hx => hx)
            rcases choose_person_spec hc with ⟨hsprest, _, hrfl⟩
            subst hrfl
            have hlen2 : (rest.erase sp).length = rest.length - 1 :=
              List.length_erase_of_mem hsprest
            have hsub2 : ∀ x ∈ rest.erase sp, x ∈ rest ++ [a] :=
              fun x hx => hrsub x ((List.erase_sublist sp rest).subset hx)
            obtain ⟨s', hs'⟩ :=
              (ih (rest.erase sp) ks.tail (by omega)
                (fun x hx => hp x (hsub2 x hx))
                (fun x hx => hu x (hsub2 x hx))).1 (by omega)
            exact ⟨_, solveAux_step_fall hPeq hAeq hc hs'⟩
      · intro hodd
        have hreven : rest.length % 2 = 0 := by omega
        by_cases hrnil : rest = []
        · subst hrnil
          have hPnil : P = [] := by
            simpa [get_preferred_people] using hPeq.symm
          have hAnil : A = [] := by
            simpa [get_accepted_people] using hAeq.symm
          subst hPnil
          subst hAnil
          exact solveAux_step_fall_choose_err hPeq hAeq (choose_person_nil [] _)
        · by_cases hPne : P ≠ []
          · obtain ⟨sp, rest2, hc⟩ := choose_person_ok (ks.headD 0) hPne
              (fun x hx => get_preferred_people_subset hPeq x hx)
            rcases choose_person_spec hc with ⟨hspP, hsprest, hrfl⟩
            subst hrfl
            have hlen2 : (rest.erase sp).length = rest.length - 1 :=
              List.length_erase_of_mem hsprest
            have hrpos : 0 < rest.length := List.length_pos.mpr hrnil
            have hsub2 : ∀ x ∈ rest.erase sp, x ∈ rest ++ [a] :=
              fun x hx => hrsub x ((List.erase_sublist sp rest).subset hx)
            have herr :=
              (ih (rest.erase sp) ks.tail (by omega)
                (fun x hx => hp x (hsub2 x hx))
                (fun x hx => hu x (hsub2 x hx))).2 (by omega)
            exact solveAux_step_pref_err hPeq hAeq hPne hc herr
          · have hPnil : P = [] := not_ne_iff.mp hPne
            subst hPnil
            by_cases hAne : A ≠ []
            · obtain ⟨sp, rest2, hc⟩ := choose_person_ok (ks.headD 0) hAne
                (fun x hx => get_accepted_people_subset hAeq x hx)
              rcases choose_person_spec hc with ⟨hspA, hsprest, hrfl⟩
              subst hrfl
              have hlen2 : (rest.erase sp).length = rest.length - 1 :=
                List.length_erase_of_mem hsprest
              have hrpos : 0 < rest.length := List.length_pos.mpr hrnil
              have hsub2 : ∀ x ∈ rest.erase sp, x ∈ rest ++ [a] :=
                fun x hx => hrsub x ((List.erase_sublist sp rest).subset hx)
              have herr :=
                (ih (rest.erase sp) ks.tail (by omega)
                  (fun x hx => hp x (hsub2 x hx))
                  (fun x hx => hu x (hsub2 x hx))).2 (by omega)
              exact solveAux_step_acc_err hPeq hAeq hAne hc herr
            · have hAnil : A = [] := not_ne_iff.mp hAne
              subst hAnil
              obtain ⟨sp, rest2, hc⟩ := choose_person_ok (ks.headD 0) hrnil
                (fun x hx => hx)
              rcases choose_person_spec hc with ⟨hsprest, _, hrfl⟩
              subst hrfl
              have hlen2 : (rest.erase sp).length = rest.length - 1 :=
                List.length_erase_of_mem hsprest
              have hrpos : 0 < rest.length := List.length_pos.mpr hrnil
              have hsub2 : ∀ x ∈ rest.erase sp, x ∈ rest ++ [a] :=
                fun x hx => hrsub x ((List.erase_sublist sp rest).subset hx)
              have herr :=
                (ih (rest.erase sp) ks.tail (by omega)
                  (fun x hx => hp x (hsub2 x hx))
                  (fun x hx => hu x (hsub2 x hx))).2 (by omega)
              exact solveAux_step_fall_err hPeq hAeq hc herr

/-- The only error messages `choose_person` can produce are the failing-pick
message and the failing-position-lookup message. -/
theorem choose_person_error_msgs {list index_list : List String} {k : Nat} {e : String}
    (h : choose_person list index_list k = .error e) :
    e = "Error choosing random person" ∨
      e = "Error choosing random item from list. Array empty." := by
  unfold choose_person at h
  split at h
  · exact Or.inl (Except.error.inj h).symm
  · split at h
    · rename_i e' hfi
      unfold find_index at hfi
      split at hfi
      · simp at hfi
      · have h1 := Except.error.inj hfi
        have h2 := Except.error.inj h
        exact Or.inr (h1.trans h2).symm
    · simp at h

/-- When every pool member has an `unpreferred` entry, the solver loop can
never fail with the accepted-classification error. -/
theorem solveAux_no_acc_error {config : Config} :
    ∀ (n : Nat) (people : List String) (ks : List Nat),
      people.length ≤ n →
      (∀ x ∈ people, (hmGet config.unpreferred x).isSome) →
      solveAux config ks people ≠ .error "Error generating accepted people" := by
  intro n
  induction n with
  | zero =>
    intro people ks hlen hu
    have hnil : people = [] := List.length_eq_zero.mp (Nat.le_zero.mp hlen)
    subst hnil
    rw [solveAux_nil]
    simp
  | succ n ih =>
    intro people ks hlen hu
    rcases List.eq_nil_or_concat people with rfl | ⟨rest, a, rfl⟩
    · rw [solveAux_nil]
      simp
    · rw [List.concat_eq_append] at hlen hu ⊢
      intro h
      rw [solveAux_concat] at h
      have hlen1 : (rest ++ [a]).length = rest.length + 1 := by simp
      split at h
      · exact absurd (Except.error.inj h) (by decide)
      · rename_i P hP
        split at h
        · rename_i hA
          have hu2 : ∀ x ∈ rest, (hmGet config.unpreferred x).isSome :=
            fun x hx => hu x (List.mem_append.mpr (Or.inl hx))
          obtain ⟨A, hAeq⟩ := get_accepted_people_isSome (hu a (by simp)) hu2
          rw [hAeq] at hA
          cases hA
        · rename_i A hA
          have hnext : ∀ (sp : String) (rest2 : List String),
              choose_person P rest (ks.headD 0) = .ok (sp, rest2) ∨
              choose_person A rest (ks.headD 0) = .ok (sp, rest2) ∨
              choose_person rest rest (ks.headD 0) = .ok (sp, rest2) →
              solveAux config ks.tail rest2 ≠
                .error "Error generating accepted people" := by
            intro sp rest2 hor
            have hspec : sp ∈ rest ∧ rest2 = rest.erase sp := by
              rcases hor with hc | hc | hc <;>
                exact ⟨(choose_person_spec hc).2.1, (choose_person_spec hc).2.2⟩
            rcases hspec with ⟨hsprest, hrfl⟩
            subst hrfl
            have hlen2 : (rest.erase sp).length = rest.length - 1 :=
              List.length_erase_of_mem hsprest
            exact ih (rest.erase sp) ks.tail (by omega)
              (fun x hx => hu x (by
                simp only [List.mem_append]
                exact Or.inl ((List.erase_sublist sp rest).subset hx)))
          split at h
          · split at h
            · rename_i e hc
              rcases choose_person_error_msgs hc with rfl | rfl <;>
                exact absurd (Except.error.inj h) (by decide)
            · rename_i sp rest2 hc
              split at h
              · rename_i e herr
                rw [Except.error.inj h] at herr
                exact hnext sp rest2 (Or.inl hc) herr
              · simp at h
          · split at h
            · split at h
              · rename_i e hc
                rcases choose_person_error_msgs hc with rfl | rfl <;>
                  exact absurd (Except.error.inj h) (by decide)
              · rename_i sp rest2 hc
                split at h
                · rename_i e herr
                  rw [Except.error.inj h] at herr
                  exact hnext sp rest2 (Or.inr (Or.inl hc)) herr
                · simp at h
            · split at h
              · rename_i e hc
                rcases choose_person_error_msgs hc with rfl | rfl <;>
                  exact absurd (Except.error.inj h) (by decide)
              · rename_i sp rest2 hc
                split at h
                · rename_i e herr
                  rw [Except.error.inj h] at herr
                  exact hnext sp rest2 (Or.inr (Or.inr hc)) herr
                · simp at h

/-- Membership characterisation of the mutually-preferred list: a person is
listed iff they are in the pool and the preference is mutual according to the
`preferred` relation. -/
theorem get_preferred_people_mem_iff {a : String} {config : Config} {pa : List String}
    (ha : hmGet config.preferred a = some pa) :
    ∀ {pool l : List String}, get_preferred_people a pool config = some l →
      ∀ b, b ∈ l ↔ b ∈ pool ∧ pa.contains b = true ∧
        ∃ pb, hmGet config.preferred b = some pb ∧ pb.contains a = true := by
  intro pool
  induction pool with
  | nil =>
    intro l h b
    simp only [get_preferred_people, Option.some.injEq] at h
    subst h
    simp
  | cons c rest ih =>
    intro l h b
    simp only [get_preferred_people] at h
    split at h
    · rename_i pa0 pc h1 h2
      rw [ha] at h1
      have hpa0 : pa0 = pa := (Option.some.inj h1).symm
      subst hpa0
      split at h
      · simp at h
      · rename_i t ht
        split at h
        · rename_i hcond
          simp only [Option.some.injEq] at h
          subst h
          simp only [Bool.and_eq_true] at hcond
          constructor
          · intro hb
            rcases List.mem_cons.mp hb with rfl | hbt
            · exact ⟨List.mem_cons_self _ _, hcond.1, pc, h2, hcond.2⟩
            · rcases (ih ht b).mp hbt with ⟨hbrest, hc1, pb, hpb, hc2⟩
              exact ⟨List.mem_cons_of_mem _ hbrest, hc1, pb, hpb, hc2⟩
          · rintro ⟨hbpool, hc1, pb, hpb, hc2⟩
            rcases List.mem_cons.mp hbpool with rfl | hbrest
            · exact List.mem_cons_self _ _
            · exact List.mem_cons_of_mem _ ((ih ht b).mpr ⟨hbrest, hc1, pb, hpb, hc2⟩)
        · rename_i hcond
          simp only [Option.some.injEq] at h
          subst h
          constructor
          · intro hb
            rcases (ih ht b).mp hb with ⟨hbrest, hc1, pb, hpb, hc2⟩
            exact ⟨List.mem_cons_of_mem _ hbrest, hc1, pb, hpb, hc2⟩
          · rintro ⟨hbpool, hc1, pb, hpb, hc2⟩
            rcases List.mem_cons.mp hbpool with rfl | hbrest
            · rw [h2] at hpb
              have hpc : pc = pb := Option.some.inj hpb
              subst hpc
              refine absurd ?_ hcond
              simp only [Bool.and_eq_true]
              exact ⟨hc1, hc2⟩
            · exact (ih ht b).mpr ⟨hbrest, hc1, pb, hpb, hc2⟩
    · simp at h

/-- Membership characterisation of the mutually-accepted list: a person is
listed iff they are in the pool and neither lists the other in the
`unpreferred` relation. -/
theorem get_accepted_people_mem_iff {a : String} {config : Config} {ua : List String}
    (ha : hmGet config.unpreferred a = some ua) :
    ∀ {pool l : List String}, get_accepted_people a pool config = some l →
      ∀ b, b ∈ l ↔ b ∈ pool ∧ ua.contains b = false ∧
        ∃ ub, hmGet config.unpreferred b = some ub ∧ ub.contains a = false := by
  intro pool
  induction pool with
  | nil =>
    intro l h b
    simp only [get_accepted_people, Option.some.injEq] at h
    subst h
    simp
  | cons c rest ih =>
    intro l h b
    simp only [get_accepted_people] at h
    split at h
    · rename_i ua0 uc h1 h2
      rw [ha] at h1
      have hua0 : ua0 = ua := (Option.some.inj h1).symm
      subst hua0
      split at h
      · simp at h
      · rename_i t ht
        split at h
        · rename_i hcond
          simp only [Option.some.injEq] at h
          subst h
          simp only [Bool.and_eq_true, Bool.not_eq_true'] at hcond
          constructor
          · intro hb
            rcases List.mem_cons.mp hb with rfl | hbt
            · exact ⟨List.mem_cons_self _ _, hcond.1, uc, h2, hcond.2⟩
            · rcases (ih ht b).mp hbt with ⟨hbrest, hc1, ub, hub, hc2⟩
              exact ⟨List.mem_cons_of_mem _ hbrest, hc1, ub, hub, hc2⟩
          · rintro ⟨hbpool, hc1, ub, hub, hc2⟩
            rcases List.mem_cons.mp hbpool with rfl | hbrest
            · exact List.mem_cons_self _ _
            · exact List.mem_cons_of_mem _ ((ih ht b).mpr ⟨hbrest, hc1, ub, hub, hc2⟩)
        · rename_i hcond
          simp only [Option.some.injEq] at h
          subst h
          constructor
          · intro hb
            rcases (ih ht b).mp hb with ⟨hbrest, hc1, ub, hub, hc2⟩
            exact ⟨List.mem_cons_of_mem _ hbrest, hc1, ub, hub, hc2⟩
          · rintro ⟨hbpool, hc1, ub, hub, hc2⟩
            rcases List.mem_cons.mp hbpool with rfl | hbrest
            · rw [h2] at hub
              have huc : uc = ub := Option.some.inj hub
              subst huc
              refine absurd ?_ hcond
              simp only [Bool.and_eq_true, Bool.not_eq_true']
              exact ⟨hc1, hc2⟩
            · exact (ih ht b).mpr ⟨hbrest, hc1, ub, hub, hc2⟩
    · simp at h

/-- The mutually-preferred classification reads only the `preferred`
relation: the `unpreferred` relation (and the settings) are irrelevant. -/
theorem get_preferred_people_unpref_irrel (a : String) :
    ∀ (pool : List String) (st1 st2 : Settings) (p u1 u2 : List (String × List String)),
      get_preferred_people a pool ⟨st1, p, u1⟩ = get_preferred_people a pool ⟨st2, p, u2⟩ := by
  intro pool
  induction pool with
  | nil => intros; rfl
  | cons b rest ih =>
    intro st1 st2 p u1 u2
    simp only [get_preferred_people]
    rw [ih st1 st2 p u1 u2]

/-- The mutually-accepted classification reads only the `unpreferred`
relation: the `preferred` relation (and the settings) are irrelevant. -/
theorem get_accepted_people_pref_irrel (a : String) :
    ∀ (pool : List String) (st1 st2 : Settings) (p1 p2 u : List (String × List String)),
      get_accepted_people a pool ⟨st1, p1, u⟩ = get_accepted_people a pool ⟨st2, p2, u⟩ := by
  intro pool
  induction pool with
  | nil => intros; rfl
  | cons b rest ih =>
    intro st1 st2 p1 p2 u
    simp only [get_accepted_people]
    rw [ih st1 st2 p1 p2 u]

/-- Specification of the two-stage lexicographic filter of `main`: on a
non-empty solution set it yields a non-empty subset whose members minimise
`unpreferred` over all solutions and maximise `preferred` over the
tied-at-minimum ones. -/
theorem rank_solutions_spec {solutions : List Solution} (hne : solutions ≠ []) :
    ∃ best, rank_solutions solutions = some best ∧ best ≠ [] ∧
      (∀ s ∈ best, s ∈ solutions) ∧
      ∀ s ∈ best,
        (∀ t ∈ solutions, s.unpreferred ≤ t.unpreferred) ∧
        (∀ t ∈ solutions, t.unpreferred = s.unpreferred → t.preferred ≤ s.preferred) := by
  cases hmin : (solutions.map fun x => x.unpreferred).min? with
  | none =>
    rw [List.min?_eq_none_iff, List.map_eq_nil_iff] at hmin
    exact absurd hmin hne
  | some m =>
    rcases List.min?_eq_some_iff'.mp hmin with ⟨hmmem, hmle⟩
    rcases List.mem_map.mp hmmem with ⟨t0, ht0, ht0m⟩
    have ht0f : t0 ∈ solutions.filter fun x => x.unpreferred == m := by
      rw [List.mem_filter]
      exact ⟨ht0, by simp [ht0m]⟩
    cases hmax : ((solutions.filter fun x => x.unpreferred == m).map
        fun x => x.preferred).max? with
    | none =>
      rw [List.max?_eq_none_iff, List.map_eq_nil_iff] at hmax
      rw [hmax] at ht0f
      simp at ht0f
    | some M =>
      rcases List.max?_eq_some_iff'.mp hmax with ⟨hMmem, hMge⟩
      rcases List.mem_map.mp hMmem with ⟨t1, ht1, ht1M⟩
      refine ⟨(solutions.filter fun x => x.unpreferred == m).filter
        fun x => x.preferred == M, ?_, ?_, ?_, ?_⟩
      · simp only [rank_solutions, hmin, hmax]
      · intro hnil
        rw [List.eq_nil_iff_forall_not_mem] at hnil
        refine hnil t1 ?_
        rw [List.mem_filter]
        exact ⟨ht1, by simp [ht1M]⟩
      · intro s hs
        rw [List.mem_filter] at hs
        rcases hs with ⟨hs1, _⟩
        rw [List.mem_filter] at hs1
        exact hs1.1
      · intro s hs
        rw [List.mem_filter] at hs
        rcases hs with ⟨hs1, hsM⟩
        rw [List.mem_filter] at hs1
        rcases hs1 with ⟨hssol, hsm⟩
        have hsm' : s.unpreferred = m := by simpa using hsm
        have hsM' : s.preferred = M := by simpa using hsM
        constructor
        · intro t ht
          rw [hsm']
          exact hmle t.unpreferred (List.mem_map_of_mem _ ht)
        · intro t ht htm
          have htf : t ∈ solutions.filter fun x => x.unpreferred == m := by
            rw [List.mem_filter]
            refine ⟨ht, by simp [htm, hsm']⟩
          rw [hsM']
          exact hMge t.preferred (List.mem_map_of_mem _ htf)

/-- Every trial of the generation loop succeeding yields exactly one solution
per trial, starting from trial index `i`. -/
theorem generate_solutions_aux_ok {config : Config}
    {rand : Nat → List String × List Nat} :
    ∀ (n i : Nat),
      (∀ j, j < n → ∃ s, solve config (rand (i + j)).1 (rand (i + j)).2 = .ok s) →
      ∃ sols, generate_solutions_aux config rand i n = .ok sols ∧ sols.length = n := by
  intro n
  induction n with
  | zero => exact fun i _ => ⟨[], rfl, rfl⟩
  | succ n ih =>
    intro i hall
    obtain ⟨s, hs⟩ := hall 0 (Nat.succ_pos n)
    rw [Nat.add_zero] at hs
    obtain ⟨tail, htail, hlen⟩ := ih (i + 1) (fun j hj => by
      have hx := hall (j + 1) (Nat.succ_lt_succ hj)
      rwa [show i + (j + 1) = (i + 1) + j by omega] at hx)
    refine ⟨s :: tail, ?_, by simp [hlen]⟩
    simp only [generate_solutions_aux, hs, htail]

/-- A failing trial in the generation loop propagates its error, discarding
the solutions of the earlier successful trials. -/
theorem generate_solutions_aux_err {config : Config}
    {rand : Nat → List String × List Nat} {e : String} :
    ∀ (n i j : Nat), j < n →
      (∀ j', j' < j → ∃ s, solve config (rand (i + j')).1 (rand (i + j')).2 = .ok s) →
      solve config (rand (i + j)).1 (rand (i + j)).2 = .error e →
      generate_solutions_aux config rand i n = .error e := by
  intro n
  induction n with
  | zero => exact fun i j hj _ _ => absurd hj (Nat.not_lt_zero j)
  | succ n ih =>
    intro i j hj hok herr
    cases j with
    | zero =>
      rw [Nat.add_zero] at herr
      simp only [generate_solutions_aux, herr]
    | succ j =>
      obtain ⟨s, hs⟩ := hok 0 (Nat.succ_pos j)
      rw [Nat.add_zero] at hs
      have hrec := ih (i + 1) j (by omega)
        (fun j' hj' => by
          have hx := hok (j' + 1) (Nat.succ_lt_succ hj')
          rwa [show i + (j' + 1) = (i + 1) + j' by omega] at hx)
        (by rwa [show i + (j + 1) = (i + 1) + j by omega] at herr)
      simp only [generate_solutions_aux, hs, hrec]

/-- A pairing of `n` rooms names `2 * n` people. -/
theorem roomsFlat_length : ∀ (rooms : List (String × String)),
    (roomsFlat rooms).length = 2 * rooms.length := by
  intro rooms
  induction rooms with
  | nil => rfl
  | cons p rest ih =>
    simp only [roomsFlat, List.length_cons, ih]
    omega

/-- A missing `preferred` entry for the pivot (with a non-empty pool) or for
any pool member makes `get_preferred_people` fail. -/
theorem get_preferred_people_none {a : String} {config : Config} :
    ∀ {pool : List String},
      ((hmGet config.preferred a = none ∧ pool ≠ []) ∨
        ∃ b ∈ pool, hmGet config.preferred b = none) →
      get_preferred_people a pool config = none := by
  intro pool
  induction pool with
  | nil =>
    rintro (⟨_, hne⟩ | ⟨b, hb, _⟩)
    · exact absurd rfl hne
    · simp at hb
  | cons c rest ih =>
    intro hcase
    rcases hcase with ⟨hana, _⟩ | ⟨b, hb, hbn⟩
    · cases hgc : hmGet config.preferred c <;>
        simp [get_preferred_people, hana, hgc]
    · rcases List.mem_cons.mp hb with rfl | hbrest
      · cases hga : hmGet config.preferred a <;>
          simp [get_preferred_people, hga, hbn]
      · have ht := ih (Or.inr ⟨b, hbrest, hbn⟩)
        cases hga : hmGet config.preferred a <;>
          cases hgc : hmGet config.preferred c <;>
          simp [get_preferred_people, hga, hgc, ht]

/-- A missing `unpreferred` entry for the pivot (with a non-empty pool) or
for any pool member makes `get_accepted_people` fail. -/
theorem get_accepted_people_none {a : String} {config : Config} :
    ∀ {pool : List String},
      ((hmGet config.unpreferred a = none ∧ pool ≠ []) ∨
        ∃ b ∈ pool, hmGet config.unpreferred b = none) →
      get_accepted_people a pool config = none := by
  intro pool
  induction pool with
  | nil =>
    rintro (⟨_, hne⟩ | ⟨b, hb, _⟩)
    · exact absurd rfl hne
    · simp at hb
  | cons c rest ih =>
    intro hcase
    rcases hcase with ⟨hana, _⟩ | ⟨b, hb, hbn⟩
    · cases hgc : hmGet config.unpreferred c <;>
        simp [get_accepted_people, hana, hgc]
    · rcases List.mem_cons.mp hb with rfl | hbrest
      · cases hga : hmGet config.unpreferred a <;>
          simp [get_accepted_people, hga, hbn]
      · have ht := ih (Or.inr ⟨b, hbrest, hbn⟩)
        cases hga : hmGet config.unpreferred a <;>
          cases hgc : hmGet config.unpreferred c <;>
          simp [get_accepted_people, hga, hgc, ht]

/-! Concrete configurations used by the witnesses. -/

/-- Two people who mutually prefer each other, empty unpreferences, one
trial. -/
def cfgW : Config :=
  { settings := { solutions := 1 },
    preferred := [("A", ["B"]), ("B", ["A"])],
    unpreferred := [("A", []), ("B", [])] }

/-- Three people (odd person set) with empty relation entries. -/
def cfgOdd : Config :=
  { settings := { solutions := 1 },
    preferred := [("A", []), ("B", []), ("C", [])],
    unpreferred := [("A", []), ("B", []), ("C", [])] }

/-- Two people who mutually prefer and also mutually unprefer each other. -/
def cfgBoth : Config :=
  { settings := { solutions := 1 },
    preferred := [("A", ["B"]), ("B", ["A"])],
    unpreferred := [("A", ["B"]), ("B", ["A"])] }

/-- A configuration whose `preferred` relation is empty (missing entries). -/
def cfgNoPref : Config :=
  { settings := { solutions := 1 },
    preferred := [],
    unpreferred := [("A", []), ("B", [])] }

/-- A configuration whose `unpreferred` relation is empty (missing
entries). -/
def cfgNoUnpref : Config :=
  { settings := { solutions := 1 },
    preferred := [("A", []), ("B", [])],
    unpreferred := [] }

/-- Two-trial variant of `cfgW`. -/
def cfgTwo : Config :=
  { settings := { solutions := 2 },
    preferred := [("A", ["B"]), ("B", ["A"])],
    unpreferred := [("A", []), ("B", [])] }

/-- Modelled trial randomness: every trial shuffles the pool to the same
order and picks index `0`. -/
def randW : Nat → List String × List Nat := fun _ => (["A", "B"], [0])

/-- Solution set used by the ranking witness. -/
def solsW : List Solution :=
  [{ rooms := [], preferred := 2, accepted := 0, unpreferred := 1 },
   { rooms := [], preferred := 1, accepted := 0, unpreferred := 0 },
   { rooms := [], preferred := 3, accepted := 0, unpreferred := 0 }]

/-! Claim theorems. -/

/-- C1: for every configuration whose person set (the key set of the
unpreferred relation) has even size and whose preferred relation has an entry
for every person, `solve` returns a Solution whose pairing contains every
person in exactly one pair and whose number of pairs equals half the number
of people. -/
theorem solve_complete_pairing (config : Config) (people : List String)
    (ks : List Nat)
    (hperm : people.Perm (hmKeys config.unpreferred))
    (hnd : (hmKeys config.unpreferred).Nodup)
    (heven : (hmKeys config.unpreferred).length % 2 = 0)
    (hpref : ∀ x ∈ hmKeys config.unpreferred, (hmGet config.preferred x).isSome) :
    ∃ s, solve config people ks = .ok s ∧
      (∀ x, (roomsFlat s.rooms).count x =
        if x ∈ hmKeys config.unpreferred then 1 else 0) ∧
      s.rooms.length = (hmKeys config.unpreferred).length / 2 := by
  have hp : ∀ x ∈ people, (hmGet config.preferred x).isSome :=
    fun x hx => hpref x (hperm.subset hx)
  have hu : ∀ x ∈ people, (hmGet config.unpreferred x).isSome :=
    fun x hx => hmGet_isSome_of_mem_keys (hperm.subset hx)
  have hlen : people.length = (hmKeys config.unpreferred).length := hperm.length_eq
  obtain ⟨s, hs⟩ := (solveAux_parity people.length people ks le_rfl hp hu).1 (by omega)
  have hflat : (roomsFlat s.rooms).Perm (hmKeys config.unpreferred) :=
    (solveAux_perm people.length people ks s le_rfl hs).trans hperm
  refine ⟨s, hs, ?_, ?_⟩
  · intro x
    by_cases hx : x ∈ hmKeys config.unpreferred
    · rw [if_pos hx, hflat.count_eq]
      exact List.count_eq_one_of_mem hnd hx
    · rw [if_neg hx, hflat.count_eq]
      exact List.count_eq_zero_of_not_mem hx
  · have h2 := roomsFlat_length s.rooms
    have h3 := hflat.length_eq
    omega

/-- Witness for C1 on the two-person configuration `cfgW`. -/
theorem solve_complete_pairing_witness :
    ((["A", "B"] : List String).Perm (hmKeys cfgW.unpreferred) ∧
      (hmKeys cfgW.unpreferred).Nodup ∧
      (hmKeys cfgW.unpreferred).length % 2 = 0 ∧
      (∀ x ∈ hmKeys cfgW.unpreferred, (hmGet cfgW.preferred x).isSome)) ∧
    ∃ s, solve cfgW ["A", "B"] [0] = .ok s ∧
      (∀ x, (roomsFlat s.rooms).count x =
        if x ∈ hmKeys cfgW.unpreferred then 1 else 0) ∧
      s.rooms.length = (hmKeys cfgW.unpreferred).length / 2 :=
  ⟨⟨by decide, by decide, by decide, by decide⟩,
    solve_complete_pairing cfgW ["A", "B"] [0] (by decide) (by decide)
      (by decide) (by decide)⟩

/-- C2: at every step of the Trial Solver the pivot is removed from the end
of the pool, the partner is chosen from the mutually-preferred list if
non-empty (preferred counter up by one), else from the mutually-accepted list
if non-empty (accepted counter up by one), else from the entire remaining
pool (unpreferred counter up by one); the partner is removed from the pool
and the pair is appended to the pairing. -/
theorem solve_step_priority (config : Config) (ks : List Nat)
    (rest : List String) (a : String) (s : Solution)
    (h : solve config (rest ++ [a]) ks = .ok s) :
    ∃ P A sp s',
      get_preferred_people a rest config = some P ∧
      get_accepted_people a rest config = some A ∧
      sp ∈ rest ∧
      solveAux config ks.tail (rest.erase sp) = .ok s' ∧
      s.rooms = (a, sp) :: s'.rooms ∧
      ((P ≠ [] ∧ sp ∈ P ∧ s.preferred = s'.preferred + 1 ∧
          s.accepted = s'.accepted ∧ s.unpreferred = s'.unpreferred) ∨
       (P = [] ∧ A ≠ [] ∧ sp ∈ A ∧ s.preferred = s'.preferred ∧
          s.accepted = s'.accepted + 1 ∧ s.unpreferred = s'.unpreferred) ∨
       (P = [] ∧ A = [] ∧ s.preferred = s'.preferred ∧
          s.accepted = s'.accepted ∧ s.unpreferred = s'.unpreferred + 1)) :=
  solveAux_ok_step h

/-- Witness for C2 on `cfgW` with pool `["A", "B"]` (pivot `"B"`). -/
theorem solve_step_priority_witness :
    solve cfgW (["A"] ++ ["B"]) [0] =
      .ok { rooms := [("B", "A")], preferred := 1, accepted := 0,
            unpreferred := 0 } ∧
    ∃ P A sp s',
      get_preferred_people "B" ["A"] cfgW = some P ∧
      get_accepted_people "B" ["A"] cfgW = some A ∧
      sp ∈ ["A"] ∧
      solveAux cfgW ([0] : List Nat).tail (["A"].erase sp) = .ok s' ∧
      (Solution.mk [("B", "A")] 1 0 0).rooms = ("B", sp) :: s'.rooms ∧
      ((P ≠ [] ∧ sp ∈ P ∧
          (Solution.mk [("B", "A")] 1 0 0).preferred = s'.preferred + 1 ∧
          (Solution.mk [("B", "A")] 1 0 0).accepted = s'.accepted ∧
          (Solution.mk [("B", "A")] 1 0 0).unpreferred = s'.unpreferred) ∨
       (P = [] ∧ A ≠ [] ∧ sp ∈ A ∧
          (Solution.mk [("B", "A")] 1 0 0).preferred = s'.preferred ∧
          (Solution.mk [("B", "A")] 1 0 0).accepted = s'.accepted + 1 ∧
          (Solution.mk [("B", "A")] 1 0 0).unpreferred = s'.unpreferred) ∨
       (P = [] ∧ A = [] ∧
          (Solution.mk [("B", "A")] 1 0 0).preferred = s'.preferred ∧
          (Solution.mk [("B", "A")] 1 0 0).accepted = s'.accepted ∧
          (Solution.mk [("B", "A")] 1 0 0).unpreferred = s'.unpreferred + 1)) := by
  have hP : get_preferred_people "B" ["A"] cfgW = some ["A"] := by decide
  have hA : get_accepted_people "B" ["A"] cfgW = some ["A"] := by decide
  have hc : choose_person ["A"] ["A"] (([0] : List Nat).headD 0) = .ok ("A", []) := rfl
  have hsolve : solve cfgW (["A"] ++ ["B"]) [0] =
      .ok { rooms := [("B", "A")], preferred := 1, accepted := 0,
            unpreferred := 0 } :=
    solveAux_step_pref hP hA (by decide) hc (solveAux_nil cfgW ([0] : List Nat).tail)
  exact ⟨hsolve, solve_step_priority cfgW [0] ["A"] "B" _ hsolve⟩

/-- C3: a pool candidate is in the mutually-preferred list iff the candidate
is in `preferred[a]` and the pivot is in `preferred[b]`; a pool candidate is
in the mutually-accepted list iff the candidate is not in `unpreferred[a]`
and the pivot is not in `unpreferred[b]`, independently of the preferred
relation. -/
theorem classifier_mem_spec (config : Config) (a : String)
    (pool P A pa ua : List String)
    (hpa : hmGet config.preferred a = some pa)
    (hua : hmGet config.unpreferred a = some ua)
    (hP : get_preferred_people a pool config = some P)
    (hA : get_accepted_people a pool config = some A) (b : String) :
    (b ∈ P ↔ b ∈ pool ∧ pa.contains b = true ∧
      ∃ pb, hmGet config.preferred b = some pb ∧ pb.contains a = true) ∧
    (b ∈ A ↔ b ∈ pool ∧ ua.contains b = false ∧
      ∃ ub, hmGet config.unpreferred b = some ub ∧ ub.contains a = false) ∧
    (∀ p2 : List (String × List String),
      get_accepted_people a pool { config with preferred := p2 } =
        get_accepted_people a pool config) := by
  refine ⟨get_preferred_people_mem_iff hpa hP b,
    get_accepted_people_mem_iff hua hA b, ?_⟩
  intro p2
  cases config with
  | mk st p u => exact get_accepted_people_pref_irrel a pool st st p2 p u

/-- Witness for C3 on `cfgBoth` with pivot `"A"` and pool `["B"]`. -/
theorem classifier_mem_spec_witness :
    (hmGet cfgBoth.preferred "A" = some ["B"] ∧
      hmGet cfgBoth.unpreferred "A" = some ["B"] ∧
      get_preferred_people "A" ["B"] cfgBoth = some ["B"] ∧
      get_accepted_people "A" ["B"] cfgBoth = some []) ∧
    (("B" ∈ (["B"] : List String) ↔ "B" ∈ (["B"] : List String) ∧
        (["B"] : List String).contains "B" = true ∧
        ∃ pb, hmGet cfgBoth.preferred "B" = some pb ∧ pb.contains "A" = true) ∧
      ("B" ∈ ([] : List String) ↔ "B" ∈ (["B"] : List String) ∧
        (["B"] : List String).contains "B" = false ∧
        ∃ ub, hmGet cfgBoth.unpreferred "B" = some ub ∧
          ub.contains "A" = false) ∧
      (∀ p2 : List (String × List String),
        get_accepted_people "A" ["B"] { cfgBoth with preferred := p2 } =
          get_accepted_people "A" ["B"] cfgBoth)) :=
  ⟨⟨rfl, rfl, by decide, by decide⟩,
    classifier_mem_spec cfgBoth "A" ["B"] ["B"] [] ["B"] ["B"] rfl rfl
      (by decide) (by decide) "B"⟩

/-- C4: on a non-empty solution set the ranking keeps exactly the solutions
whose `unpreferred` count is minimal and, among those, whose `preferred`
count is maximal; any member the final random pick selects therefore has
`unpreferred` ≤ every solution's and `preferred` ≥ every tied solution's. -/
theorem rank_best_solution (solutions : List Solution) (hne : solutions ≠ []) :
    ∃ best, rank_solutions solutions = some best ∧ best ≠ [] ∧
      (∀ s ∈ best, s ∈ solutions) ∧
      ∀ s ∈ best,
        (∀ t ∈ solutions, s.unpreferred ≤ t.unpreferred) ∧
        (∀ t ∈ solutions, t.unpreferred = s.unpreferred →
          t.preferred ≤ s.preferred) :=
  rank_solutions_spec hne

/-- Witness for C4 on a three-element solution set. -/
theorem rank_best_solution_witness :
    solsW ≠ [] ∧
    ∃ best, rank_solutions solsW = some best ∧ best ≠ [] ∧
      (∀ s ∈ best, s ∈ solsW) ∧
      ∀ s ∈ best,
        (∀ t ∈ solsW, s.unpreferred ≤ t.unpreferred) ∧
        (∀ t ∈ solsW, t.unpreferred = s.unpreferred →
          t.preferred ≤ s.preferred) :=
  ⟨by decide, rank_best_solution solsW (by decide)⟩

/-- C5: a configuration whose person set has odd size never lets the Trial
Solver produce a pairing, and (with the relation entries the spec requires
present) the failure is precisely the pool-exhaustion error: the failing pick
on the empty pool. -/
theorem solve_odd_pool_exhaustion (config : Config) (people : List String)
    (ks : List Nat)
    (hperm : people.Perm (hmKeys config.unpreferred))
    (hodd : (hmKeys config.unpreferred).length % 2 = 1) :
    (∀ s, solve config people ks ≠ .ok s) ∧
    ((∀ x ∈ hmKeys config.unpreferred, (hmGet config.preferred x).isSome) →
      solve config people ks = .error "Error choosing random person") := by
  have hlen : people.length = (hmKeys config.unpreferred).length := hperm.length_eq
  constructor
  · intro s hs
    have hflat := solveAux_perm people.length people ks s le_rfl hs
    have h2 := roomsFlat_length s.rooms
    have h3 := hflat.length_eq
    omega
  · intro hpref
    have hp : ∀ x ∈ people, (hmGet config.preferred x).isSome :=
      fun x hx => hpref x (hperm.subset hx)
    have hu : ∀ x ∈ people, (hmGet config.unpreferred x).isSome :=
      fun x hx => hmGet_isSome_of_mem_keys (hperm.subset hx)
    exact (solveAux_parity people.length people ks le_rfl hp hu).2 (by omega)

/-- Witness for C5 on the three-person configuration `cfgOdd`. -/
theorem solve_odd_pool_exhaustion_witness :
    ((["A", "B", "C"] : List String).Perm (hmKeys cfgOdd.unpreferred) ∧
      (hmKeys cfgOdd.unpreferred).length % 2 = 1 ∧
      (∀ x ∈ hmKeys cfgOdd.unpreferred, (hmGet cfgOdd.preferred x).isSome)) ∧
    (∀ s, solve cfgOdd ["A", "B", "C"] [0, 0] ≠ .ok s) ∧
    solve cfgOdd ["A", "B", "C"] [0, 0] = .error "Error choosing random person" := by
  have t := solve_odd_pool_exhaustion cfgOdd ["A", "B", "C"] [0, 0]
    (by decide) (by decide)
  exact ⟨⟨by decide, by decide, by decide⟩, t.1, t.2 (by decide)⟩

/-- C6: every Solution the Trial Solver returns satisfies
`preferred + accepted + unpreferred = number of pairs`. -/
theorem solution_counters_sum (config : Config) (people : List String)
    (ks : List Nat) (s : Solution) (h : solve config people ks = .ok s) :
    s.preferred + s.accepted + s.unpreferred = s.rooms.length :=
  solveAux_counts people.length people ks s le_rfl h

/-- Witness for C6 on `cfgW`. -/
theorem solution_counters_sum_witness :
    solve cfgW (["A"] ++ ["B"]) [0] =
      .ok { rooms := [("B", "A")], preferred := 1, accepted := 0,
            unpreferred := 0 } ∧
    (1 : Nat) + 0 + 0 = ([("B", "A")] : List (String × String)).length := by
  have hP : get_preferred_people "B" ["A"] cfgW = some ["A"] := by decide
  have hA : get_accepted_people "B" ["A"] cfgW = some ["A"] := by decide
  have hc : choose_person ["A"] ["A"] (([0] : List Nat).headD 0) = .ok ("A", []) := rfl
  have hsolve : solve cfgW (["A"] ++ ["B"]) [0] =
      .ok { rooms := [("B", "A")], preferred := 1, accepted := 0,
            unpreferred := 0 } :=
    solveAux_step_pref hP hA (by decide) hc (solveAux_nil cfgW ([0] : List Nat).tail)
  exact ⟨hsolve, solution_counters_sum cfgW (["A"] ++ ["B"]) [0] _ hsolve⟩

/-- C7: a missing relation entry for the pivot (with candidates present) or
for any pool candidate makes the classification fail with `none` instead of
defaulting to an empty list, and such a failure aborts the solve with the
corresponding missing-data error. -/
theorem missing_entry_aborts (config : Config) (a : String)
    (pool rest : List String) (ks : List Nat) :
    (((hmGet config.preferred a = none ∧ pool ≠ []) ∨
        ∃ b ∈ pool, hmGet config.preferred b = none) →
      get_preferred_people a pool config = none) ∧
    (((hmGet config.unpreferred a = none ∧ pool ≠ []) ∨
        ∃ b ∈ pool, hmGet config.unpreferred b = none) →
      get_accepted_people a pool config = none) ∧
    (get_preferred_people a rest config = none →
      solve config (rest ++ [a]) ks = .error "Error generating preferred people") ∧
    (∀ P, get_preferred_people a rest config = some P →
      get_accepted_people a rest config = none →
      solve config (rest ++ [a]) ks = .error "Error generating accepted people") := by
  refine ⟨fun h => get_preferred_people_none h,
    fun h => get_accepted_people_none h, ?_, ?_⟩
  · intro hnone
    exact solveAux_step_pref_none hnone
  · intro P hP hA
    exact solveAux_step_acc_none hP hA

/-- Witness for C7 on the missing-entry configurations. -/
theorem missing_entry_aborts_witness :
    (get_preferred_people "A" ["B"] cfgNoPref = none ∧
      solve cfgNoPref (["B"] ++ ["A"]) [0] =
        .error "Error generating preferred people") ∧
    (get_accepted_people "A" ["B"] cfgNoUnpref = none ∧
      solve cfgNoUnpref (["B"] ++ ["A"]) [0] =
        .error "Error generating accepted people") := by
  have t1 := missing_entry_aborts cfgNoPref "A" ["B"] ["B"] [0]
  have t2 := missing_entry_aborts cfgNoUnpref "A" ["B"] ["B"] [0]
  have hp : get_preferred_people "A" ["B"] cfgNoPref = none :=
    t1.1 (Or.inl ⟨rfl, by decide⟩)
  have ha : get_accepted_people "A" ["B"] cfgNoUnpref = none :=
    t2.2.1 (Or.inl ⟨rfl, by decide⟩)
  exact ⟨⟨hp, t1.2.2.1 hp⟩,
    ⟨ha, t2.2.2.2 [] (by decide) ha⟩⟩

/-- C8: the Trial Generator returns exactly the configured trial-count number
of Solutions when every trial succeeds, and a single failing trial makes it
return that trial's error with no partial results. -/
theorem generate_all_or_nothing (config : Config)
    (rand : Nat → List String × List Nat) :
    ((∀ j, j < config.settings.solutions.toNat →
        ∃ s, solve config (rand j).1 (rand j).2 = .ok s) →
      ∃ sols, generate_solutions config rand = .ok sols ∧
        sols.length = config.settings.solutions.toNat) ∧
    (∀ e j, j < config.settings.solutions.toNat →
      (∀ j', j' < j → ∃ s, solve config (rand j').1 (rand j').2 = .ok s) →
      solve config (rand j).1 (rand j).2 = .error e →
      generate_solutions config rand = .error e) := by
  constructor
  · intro hall
    have h := generate_solutions_aux_ok config.settings.solutions.toNat 0
      (fun j hj => by simpa using hall j hj)
    simpa [generate_solutions] using h
  · intro e j hj hok herr
    have h := generate_solutions_aux_err config.settings.solutions.toNat 0 j hj
      (fun j' hj' => by simpa using hok j' hj')
      (by simpa using herr)
    simpa [generate_solutions] using h

/-- Witness for C8 on the two-trial configuration `cfgTwo`. -/
theorem generate_all_or_nothing_witness :
    (∀ j, j < cfgTwo.settings.solutions.toNat →
      ∃ s, solve cfgTwo (randW j).1 (randW j).2 = .ok s) ∧
    ∃ sols, generate_solutions cfgTwo randW = .ok sols ∧
      sols.length = cfgTwo.settings.solutions.toNat := by
  have hP : get_preferred_people "B" ["A"] cfgTwo = some ["A"] := by decide
  have hA : get_accepted_people "B" ["A"] cfgTwo = some ["A"] := by decide
  have hc : choose_person ["A"] ["A"] (([0] : List Nat).headD 0) = .ok ("A", []) := rfl
  have hsolve : solve cfgTwo (["A"] ++ ["B"]) [0] =
      .ok { rooms := [("B", "A")], preferred := 1, accepted := 0,
            unpreferred := 0 } :=
    solveAux_step_pref hP hA (by decide) hc (solveAux_nil cfgTwo ([0] : List Nat).tail)
  have hall : ∀ j, j < cfgTwo.settings.solutions.toNat →
      ∃ s, solve cfgTwo (randW j).1 (randW j).2 = .ok s :=
    fun j _ => ⟨_, hsolve⟩
  exact ⟨hall, (generate_all_or_nothing cfgTwo randW).1 hall⟩

/-- C9: for a pool drawn from the key set of the unpreferred relation every
unpreferred lookup succeeds, so the error branch of the mutually-accepted
classification is unreachable: the solve can never return the
accepted-classification missing-data error. -/
theorem accepted_error_unreachable (config : Config) (people : List String)
    (ks : List Nat) (hperm : people.Perm (hmKeys config.unpreferred)) :
    (∀ x ∈ people, (hmGet config.unpreferred x).isSome) ∧
    solve config people ks ≠ .error "Error generating accepted people" := by
  have hu : ∀ x ∈ people, (hmGet config.unpreferred x).isSome :=
    fun x hx => hmGet_isSome_of_mem_keys (hperm.subset hx)
  exact ⟨hu, solveAux_no_acc_error people.length people ks le_rfl hu⟩

/-- Witness for C9 on `cfgW`. -/
theorem accepted_error_unreachable_witness :
    (["A", "B"] : List String).Perm (hmKeys cfgW.unpreferred) ∧
    ((∀ x ∈ (["A", "B"] : List String), (hmGet cfgW.unpreferred x).isSome) ∧
      solve cfgW ["A", "B"] [0] ≠ .error "Error generating accepted people") :=
  ⟨by decide, accepted_error_unreachable cfgW ["A", "B"] [0] (by decide)⟩

/-- C10: the mutually-preferred classification does not read the unpreferred
relation (configurations differing only there classify identically), and two
people who mutually prefer each other are paired with the preferred counter
incremented even when each also lists the other as unpreferred. -/
theorem preferred_independent_of_unpreferred :
    (∀ (a : String) (pool : List String) (st1 st2 : Settings)
        (p u1 u2 : List (String × List String)),
      get_preferred_people a pool ⟨st1, p, u1⟩ =
        get_preferred_people a pool ⟨st2, p, u2⟩) ∧
    (∀ (config : Config) (a b : String) (ks : List Nat)
        (pa pb ua ub : List String),
      hmGet config.preferred a = some pa → pa.contains b = true →
      hmGet config.preferred b = some pb → pb.contains a = true →
      hmGet config.unpreferred a = some ua → hmGet config.unpreferred b = some ub →
      solve config [b, a] ks =
        .ok { rooms := [(a, b)], preferred := 1, accepted := 0,
              unpreferred := 0 }) := by
  constructor
  · exact fun a pool st1 st2 p u1 u2 =>
      get_preferred_people_unpref_irrel a pool st1 st2 p u1 u2
  · intro config a b ks pa pb ua ub hpa hab hpb hba hua hub
    have hP : get_preferred_people a [b] config = some [b] := by
      simp [get_preferred_people, hpa, hpb, hab, hba]
      exact ⟨by simpa using hab, by simpa using hba⟩
    have hsome : (hmGet config.unpreferred a).isSome := by
      rw [hua]
      rfl
    have hall : ∀ x ∈ ([b] : List String), (hmGet config.unpreferred x).isSome := by
      intro x hx
      simp only [List.mem_singleton] at hx
      subst hx
      rw [hub]
      rfl
    obtain ⟨A, hAeq⟩ := get_accepted_people_isSome hsome hall
    have hc : choose_person [b] [b] (ks.headD 0) = .ok (b, []) := by
      have h1 : (ks.headD 0) % ([b] : List String).length = 0 := Nat.mod_one _
      unfold choose_person
      rw [h1]
      unfold find_index
      simp
    exact solveAux_step_pref hP hAeq (by simp) hc (solveAux_nil config ks.tail)

/-- Witness for C10 on `cfgBoth`, where the two people also mutually
unprefer each other. -/
theorem preferred_independent_of_unpreferred_witness :
    (hmGet cfgBoth.preferred "A" = some ["B"] ∧
      (["B"] : List String).contains "B" = true ∧
      hmGet cfgBoth.preferred "B" = some ["A"] ∧
      (["A"] : List String).contains "A" = true ∧
      hmGet cfgBoth.unpreferred "A" = some ["B"] ∧
      hmGet cfgBoth.unpreferred "B" = some ["A"]) ∧
    solve cfgBoth ["B", "A"] [0] =
      .ok { rooms := [("A", "B")], preferred := 1, accepted := 0,
            unpreferred := 0 } :=
  ⟨⟨rfl, rfl, rfl, rfl, rfl, rfl⟩,
    preferred_independent_of_unpreferred.2 cfgBoth "A" "B" [0] ["B"] ["A"]
      ["B"] ["A"] rfl rfl rfl rfl rfl rfl⟩

end Picker
